import Mathlib

/-!
Verification of the file-processing core of the DeepCode repository
(`src/utils/file_processor.py`).  Strings are embedded as `List Char`,
byte streams as `List Nat` (each element is a byte value `< 256`).
Python semantics that the code relies on (the heading regex, `str.strip`,
`str.split`, the codec behaviour of `open(..., encoding=...)`) are
embedded explicitly below, each with a comment explaining the embedding.
-/

/-- Characters for which Python's `str.isspace()` (and the regex class `\s`
with `str` patterns, both backed by `Py_UNICODE_ISSPACE`) returns true.
`str.strip()` trims exactly these characters. -/
def isSpace (c : Char) : Bool :=
  c = ' ' || c = '\t' || c = '\n' || (c.toNat = 11) || (c.toNat = 12) ||
  c = '\r' || (c.toNat = 28) || (c.toNat = 29) || (c.toNat = 30) ||
  (c.toNat = 31) || (c.toNat = 133) || (c.toNat = 160) ||
  (c.toNat = 0x1680) || (0x2000 ≤ c.toNat && c.toNat ≤ 0x200A) ||
  (c.toNat = 0x2028) || (c.toNat = 0x2029) || (c.toNat = 0x202F) ||
  (c.toNat = 0x205F) || (c.toNat = 0x3000)

/-- `True` iff the string contains no newline character. -/
def noNL (l : List Char) : Bool := l.all (fun c => c ≠ '\n')

/-- Left trim: drop leading Python-whitespace, as in `str.lstrip()`. -/
def ltrim (l : List Char) : List Char := l.dropWhile isSpace

/-- Right trim: drop trailing Python-whitespace, as in `str.rstrip()`. -/
def rtrim (l : List Char) : List Char := (ltrim l.reverse).reverse

/-- Python `str.strip()`: trim whitespace from both ends. -/
def pyStrip (l : List Char) : List Char := rtrim (ltrim l)

/-- Python `content.split("\n")`: split on every newline, keeping empty
segments; the result is always non-empty (`"".split("\n") == [""]`). -/
def splitLines : List Char → List (List Char)
  | [] => [[]]
  | c :: rest =>
    match splitLines rest with
    | [] => [[]]
    | l :: ls => if c = '\n' then [] :: l :: ls else (c :: l) :: ls

/-- Python `"\n".join(lines)`. -/
def joinLines : List (List Char) → List Char
  | [] => []
  | [l] => l
  | l :: ls => l ++ '\n' :: joinLines ls

/-- The heading matcher `re.match(r"^(#{1,6})\s+(.+)$", line)` of
`parse_markdown_sections`, applied to a single line (no `'\n'` inside).
Returned is `(level, title)` where `level = len(group(1))` and
`title = group(2).strip()`, exactly the values the scanner stores.

Derivation from the regex, for a line whose leading `'#'` run has length
`r` and remainder `rest`:  `#{1,6}` must stop at a non-`'#'` character, so
a match forces `1 ≤ r ≤ 6` and consumes the whole run; `\s+` then requires
`rest` to start with whitespace; `.+` requires at least one character
after the (possibly backtracked) whitespace run, so `rest` must have
length ≥ 2.  Conversely any such line matches.  Wherever `\s+`/`.+` split
`rest`, `group(2)` differs from `rest` only by leading whitespace, hence
`group(2).strip() = rest.strip()`. -/
def parseHead (line : List Char) : Option (Nat × List Char) :=
  let hs := line.takeWhile (fun c => c = '#')
  let rest := line.dropWhile (fun c => c = '#')
  match rest with
  | a :: _ :: _ =>
    if 1 ≤ hs.length ∧ hs.length ≤ 6 ∧ isSpace a = true then
      some (hs.length, pyStrip rest)
    else none
  | _ => none

example : parseHead ('#' :: ' ' :: 'x' :: []) = some (1, ['x']) := by decide
example : parseHead ('#' :: ' ' :: ' ' :: []) = some (1, []) := by decide
example : parseHead ('#' :: ' ' :: []) = none := by decide
example : parseHead (' ' :: '#' :: ' ' :: 'x' :: []) = none := by decide
example : splitLines ('a' :: '\n' :: 'b' :: []) = [['a'], ['b']] := by decide

/-!
## The section tree

A section dictionary of `parse_markdown_sections` has keys
`level / title / content / subsections`.  `Sec` and `Forest` embed it as a
mutually inductive rose tree (`Forest` plays the role of a Python list of
section dicts).
-/

mutual

inductive Sec : Type where
  | mk : Nat → List Char → List Char → Forest → Sec

inductive Forest : Type where
  | nil : Forest
  | cons : Sec → Forest → Forest

end

def Sec.level : Sec → Nat
  | .mk l _ _ _ => l

def Sec.title : Sec → List Char
  | .mk _ t _ _ => t

def Sec.content : Sec → List Char
  | .mk _ _ c _ => c

def Sec.subs : Sec → Forest
  | .mk _ _ _ f => f

def appendF : Forest → Forest → Forest
  | .nil, g => g
  | .cons s f, g => .cons s (appendF f g)

/-- `section_stack[-1]["subsections"].append(section)`: append one child at
the end of a section's subsection list. -/
def addSub : Sec → Sec → Sec
  | .mk l t c f, x => .mk l t c (appendF f (.cons x .nil))

/-!
## The hierarchy builder `_organize_sections`

The Python loop keeps a stack of open sections and appends each incoming
section either to `result` or to the subsections of the stack top *at push
time*, relying on in-place mutation of the shared dicts.  The functional
embedding delays that attachment to pop time: a section leaves the stack
exactly when everything that will ever be appended to its subsections has
been appended, so attaching it to the element below (or to the result
forest when it is the last stack entry) at pop time yields the same tree.
`popAux lvl t rest res` runs `while section_stack and
section_stack[-1]["level"] >= lvl: section_stack.pop()` on the stack
`t :: rest` (top first); after the input is exhausted the remaining stack
is drained with `lvl = 0` (which pops everything). -/
def popAux (lvl : Nat) : Sec → List Sec → Forest → List Sec × Forest
  | t, rest, res =>
    if lvl ≤ t.level then
      match rest with
      | [] => ([], appendF res (.cons t .nil))
      | u :: rest2 => popAux lvl (addSub u t) rest2 res
    else (t :: rest, res)

def organizeAux : Forest → List Sec → Forest → Forest
  | .nil, [], res => res
  | .nil, t :: rest, res => (popAux 0 t rest res).2
  | .cons s f, [], res => organizeAux f [s] res
  | .cons s f, t :: rest, res =>
    let pr := popAux s.level t rest res
    organizeAux f (s :: pr.1) pr.2

/-- `FileProcessor._organize_sections`. -/
def organize (f : Forest) : Forest := organizeAux f [] .nil

/-!
## The scanner loop of `parse_markdown_sections`
-/

/-- The loop state `(current_section, current_content)`: an open section's
level and title together with the content lines accumulated so far. -/
structure Pend where
  level : Nat
  title : List Char
  clines : List (List Char)

/-- Closing an open section: `current_section["content"] =
"\n".join(current_content).strip()`. -/
def closePend (p : Pend) : Sec :=
  .mk p.level p.title (pyStrip (joinLines p.clines)) .nil

/-- The line loop of `parse_markdown_sections`: a heading line closes the
open section (if any) and opens a new one; other lines are appended to the
open section's content and dropped when no section is open. -/
def scanLines : List (List Char) → Option Pend → Forest
  | [], none => .nil
  | [], some p => .cons (closePend p) .nil
  | l :: ls, cur =>
    match parseHead l with
    | some (lv, tt) =>
      match cur with
      | none => scanLines ls (some ⟨lv, tt, []⟩)
      | some p => .cons (closePend p) (scanLines ls (some ⟨lv, tt, []⟩))
    | none =>
      match cur with
      | none => scanLines ls none
      | some p => scanLines ls (some ⟨p.level, p.title, p.clines ++ [l]⟩)

/-- `FileProcessor.parse_markdown_sections`. -/
def parseMarkdownSections (content : List Char) : Forest :=
  organize (scanLines (splitLines content) none)

/-!
## The renderer `format_section_content` / `standardize_output`
-/

def eq80 : List Char := List.replicate 80 '='

mutual

/-- `FileProcessor.format_section_content`. -/
def fmtS : Sec → List Char
  | .mk l t c ss =>
    '\n' :: (List.replicate l '#' ++ ' ' :: t) ++ '\n' ::
    ((if c ≠ [] then '\n' :: (pyStrip c ++ ['\n']) else []) ++
     ((match ss with
       | .nil => []
       | .cons _ _ =>
         (if c ≠ [] then '\n' :: ('-' :: '-' :: '-' :: ['\n']) else []) ++
         fmtF ss) ++
      '\n' :: (eq80 ++ ['\n'])))

def fmtF : Forest → List Char
  | .nil => []
  | .cons s f => fmtS s ++ fmtF f

end

/-- `FileProcessor.standardize_output`: `"\n".join(formatted sections)`. -/
def standardizeOutput : Forest → List Char
  | .nil => []
  | .cons s .nil => fmtS s
  | .cons s (.cons s2 f) => fmtS s ++ '\n' :: standardizeOutput (.cons s2 f)

/-!
## Pre-order flattening and node invariants
-/

mutual

/-- Pre-order list of `(level, title, content)` triples of a tree. -/
def flatS : Sec → List (Nat × List Char × List Char)
  | .mk l t c ss => (l, t, c) :: flatF ss

def flatF : Forest → List (Nat × List Char × List Char)
  | .nil => []
  | .cons s f => flatS s ++ flatF f

end

/-- Pre-order `(level, title)` pairs of a forest. -/
def flatLT (f : Forest) : List (Nat × List Char) :=
  (flatF f).map (fun x => (x.1, x.2.1))

/-- Triples of a flat (subsection-free) forest, in order. -/
def projF : Forest → List (Nat × List Char × List Char)
  | .nil => []
  | .cons s f => (s.level, s.title, s.content) :: projF f

def isNilF : Forest → Bool
  | .nil => true
  | .cons _ _ => false

/-- All sections of the forest have empty `subsections` (a flat input
sequence as produced by the scanner). -/
def allFlatF : Forest → Bool
  | .nil => true
  | .cons s f => isNilF s.subs && allFlatF f

mutual

/-- Every subsection has level strictly greater than its parent,
recursively at every depth. -/
def goodS : Sec → Bool
  | .mk l _ _ ss => goodAbove l ss

def goodAbove : Nat → Forest → Bool
  | _, .nil => true
  | l, .cons s f => (decide (l < s.level) && goodS s) && goodAbove l f

end

def goodF : Forest → Bool
  | .nil => true
  | .cons s f => goodS s && goodF f

example :
    organize (.cons (.mk 1 ['A'] [] .nil)
      (.cons (.mk 3 ['B'] [] .nil) (.cons (.mk 2 ['C'] [] .nil) .nil))) =
    .cons (.mk 1 ['A'] []
      (.cons (.mk 3 ['B'] [] .nil) (.cons (.mk 2 ['C'] [] .nil) .nil))) .nil := rfl

/-!
## Byte decoding: the model of `read_file_content`

Bytes are `Nat` values `< 256`.  The codecs called through
`open(file_path, "r", encoding=...)` are CPython standard-library codecs,
not repository code; they are embedded here from their documented
behaviour.  A codec returns `none` where CPython raises
`UnicodeDecodeError` (or `LookupError` for an unknown encoding name);
`read_file_content` catches each such failure and moves to the next
candidate encoding.
-/

/-- A strict UTF-8 continuation byte. -/
def utf8Cont (b : Nat) : Bool := 0x80 ≤ b && b ≤ 0xBF

/-- Strict UTF-8 decoding (CPython `utf-8` codec, `errors="strict"`):
rejects overlong forms, surrogates and values above U+10FFFF. -/
def utf8Dec : List Nat → Option (List Char)
  | [] => some []
  | b :: bs =>
    if b < 0x80 then (utf8Dec bs).map (Char.ofNat b :: ·)
    else if b < 0xC2 then none
    else if b ≤ 0xDF then
      match bs with
      | b2 :: bs2 =>
        if utf8Cont b2 then
          (utf8Dec bs2).map (Char.ofNat ((b - 0xC0) * 64 + (b2 - 0x80)) :: ·)
        else none
      | [] => none
    else if b ≤ 0xEF then
      match bs with
      | b2 :: b3 :: bs3 =>
        if (if b = 0xE0 then 0xA0 ≤ b2 && b2 ≤ 0xBF
            else if b = 0xED then 0x80 ≤ b2 && b2 ≤ 0x9F
            else utf8Cont b2) && utf8Cont b3 then
          (utf8Dec bs3).map
            (Char.ofNat ((b - 0xE0) * 4096 + (b2 - 0x80) * 64 + (b3 - 0x80)) :: ·)
        else none
      | _ => none
    else if b ≤ 0xF4 then
      match bs with
      | b2 :: b3 :: b4 :: bs4 =>
        if (if b = 0xF0 then 0x90 ≤ b2 && b2 ≤ 0xBF
            else if b = 0xF4 then 0x80 ≤ b2 && b2 ≤ 0x8F
            else utf8Cont b2) && utf8Cont b3 && utf8Cont b4 then
          (utf8Dec bs4).map
            (Char.ofNat ((b - 0xF0) * 262144 + (b2 - 0x80) * 4096 +
              (b3 - 0x80) * 64 + (b4 - 0x80)) :: ·)
        else none
      | _ => none
    else none

/-- U+FFFD, the replacement glyph. -/
def repl : Char := Char.ofNat 0xFFFD

/-- Fuelled worker for the forced decode; every step consumes at least one
byte, so `fuel = length + 1` never runs out. -/
def utf8RepAux : Nat → List Nat → List Char
  | 0, _ => []
  | _ + 1, [] => []
  | fuel + 1, b :: bs =>
    if b < 0x80 then Char.ofNat b :: utf8RepAux fuel bs
    else if b < 0xC2 then repl :: utf8RepAux fuel bs
    else if b ≤ 0xDF then
      match bs with
      | b2 :: bs2 =>
        if utf8Cont b2 then
          Char.ofNat ((b - 0xC0) * 64 + (b2 - 0x80)) :: utf8RepAux fuel bs2
        else repl :: utf8RepAux fuel bs
      | [] => [repl]
    else if b ≤ 0xEF then
      match bs with
      | b2 :: bs2 =>
        if (if b = 0xE0 then 0xA0 ≤ b2 && b2 ≤ 0xBF
            else if b = 0xED then 0x80 ≤ b2 && b2 ≤ 0x9F
            else utf8Cont b2) then
          match bs2 with
          | b3 :: bs3 =>
            if utf8Cont b3 then
              Char.ofNat ((b - 0xE0) * 4096 + (b2 - 0x80) * 64 + (b3 - 0x80)) ::
                utf8RepAux fuel bs3
            else repl :: utf8RepAux fuel bs2
          | [] => [repl]
        else repl :: utf8RepAux fuel bs
      | [] => [repl]
    else if b ≤ 0xF4 then
      match bs with
      | b2 :: bs2 =>
        if (if b = 0xF0 then 0x90 ≤ b2 && b2 ≤ 0xBF
            else if b = 0xF4 then 0x80 ≤ b2 && b2 ≤ 0x8F
            else utf8Cont b2) then
          match bs2 with
          | b3 :: bs3 =>
            if utf8Cont b3 then
              match bs3 with
              | b4 :: bs4 =>
                if utf8Cont b4 then
                  Char.ofNat ((b - 0xF0) * 262144 + (b2 - 0x80) * 4096 +
                    (b3 - 0x80) * 64 + (b4 - 0x80)) :: utf8RepAux fuel bs4
                else repl :: utf8RepAux fuel bs3
              | [] => [repl]
            else repl :: utf8RepAux fuel bs2
          | [] => [repl]
        else repl :: utf8RepAux fuel bs
      | [] => [repl]
    else repl :: utf8RepAux fuel bs

/-- The forced decode `open(file_path, "r", encoding="utf-8",
errors="replace")`: total — every maximal invalid subpart is replaced by
one U+FFFD and decoding continues after it. -/
def utf8Rep (bs : List Nat) : List Char := utf8RepAux (bs.length + 1) bs

/-- CPython `utf-8-sig`: strip one leading BOM `EF BB BF` if present, then
decode as UTF-8. -/
def utf8SigDec (bs : List Nat) : Option (List Char) :=
  match bs with
  | 0xEF :: 0xBB :: 0xBF :: rest => utf8Dec rest
  | _ => utf8Dec bs

/-- CPython `latin1` (ISO-8859-1): total, byte value = code point. -/
def latin1Dec (bs : List Nat) : Option (List Char) :=
  some (bs.map Char.ofNat)

/-- CPython `cp1252` mapping for the `0x80`–`0x9F` range; the five holes
`0x81 0x8D 0x8F 0x90 0x9D` are undefined and raise. -/
def cp1252Byte (b : Nat) : Option Char :=
  if b = 0x80 then some (Char.ofNat 0x20AC)
  else if b = 0x82 then some (Char.ofNat 0x201A)
  else if b = 0x83 then some (Char.ofNat 0x0192)
  else if b = 0x84 then some (Char.ofNat 0x201E)
  else if b = 0x85 then some (Char.ofNat 0x2026)
  else if b = 0x86 then some (Char.ofNat 0x2020)
  else if b = 0x87 then some (Char.ofNat 0x2021)
  else if b = 0x88 then some (Char.ofNat 0x02C6)
  else if b = 0x89 then some (Char.ofNat 0x2030)
  else if b = 0x8A then some (Char.ofNat 0x0160)
  else if b = 0x8B then some (Char.ofNat 0x2039)
  else if b = 0x8C then some (Char.ofNat 0x0152)
  else if b = 0x8E then some (Char.ofNat 0x017D)
  else if b = 0x91 then some (Char.ofNat 0x2018)
  else if b = 0x92 then some (Char.ofNat 0x2019)
  else if b = 0x93 then some (Char.ofNat 0x201C)
  else if b = 0x94 then some (Char.ofNat 0x201D)
  else if b = 0x95 then some (Char.ofNat 0x2022)
  else if b = 0x96 then some (Char.ofNat 0x2013)
  else if b = 0x97 then some (Char.ofNat 0x2014)
  else if b = 0x98 then some (Char.ofNat 0x02DC)
  else if b = 0x99 then some (Char.ofNat 0x2122)
  else if b = 0x9A then some (Char.ofNat 0x0161)
  else if b = 0x9B then some (Char.ofNat 0x203A)
  else if b = 0x9C then some (Char.ofNat 0x0153)
  else if b = 0x9E then some (Char.ofNat 0x017E)
  else if b = 0x9F then some (Char.ofNat 0x0178)
  else if 0x80 ≤ b ∧ b ≤ 0x9F then none
  else some (Char.ofNat b)

def cp1252Dec : List Nat → Option (List Char)
  | [] => some []
  | b :: bs =>
    match cp1252Byte b with
    | some c => (cp1252Dec bs).map (c :: ·)
    | none => none

/-- CPython `ascii`: bytes below 0x80 only. -/
def asciiDec : List Nat → Option (List Char)
  | [] => some []
  | b :: bs => if b < 0x80 then (asciiDec bs).map (Char.ofNat b :: ·) else none

/-- UTF-16 code-unit stream decoding with the given endianness
(`be = true` reads big-endian pairs); surrogate pairs are combined,
unpaired surrogates and odd tails raise. -/
def utf16DecE (be : Bool) : List Nat → Option (List Char)
  | [] => some []
  | [_] => none
  | a :: b :: rest =>
    let u := if be then a * 256 + b else b * 256 + a
    if u < 0xD800 ∨ 0xE000 ≤ u then
      (utf16DecE be rest).map (Char.ofNat u :: ·)
    else if u ≤ 0xDBFF then
      match rest with
      | c :: d :: rest2 =>
        let v := if be then c * 256 + d else d * 256 + c
        if 0xDC00 ≤ v ∧ v ≤ 0xDFFF then
          (utf16DecE be rest2).map
            (Char.ofNat (0x10000 + (u - 0xD800) * 1024 + (v - 0xDC00)) :: ·)
        else none
      | _ => none
    else none

/-- CPython `utf-16`: honour a BOM if present, otherwise native order
(little-endian assumed, as on the development platform). -/
def utf16Dec (bs : List Nat) : Option (List Char) :=
  match bs with
  | 0xFE :: 0xFF :: rest => utf16DecE true rest
  | 0xFF :: 0xFE :: rest => utf16DecE false rest
  | _ => utf16DecE false bs

/-- UTF-32 code-unit stream decoding with the given endianness. -/
def utf32DecE (be : Bool) : List Nat → Option (List Char)
  | [] => some []
  | a :: b :: c :: d :: rest =>
    let u := if be then ((a * 256 + b) * 256 + c) * 256 + d
             else ((d * 256 + c) * 256 + b) * 256 + a
    if (u < 0xD800 ∨ 0xE000 ≤ u) ∧ u < 0x110000 then
      (utf32DecE be rest).map (Char.ofNat u :: ·)
    else none
  | _ => none

/-- CPython `utf-32`: honour a BOM if present, otherwise native order
(little-endian assumed). -/
def utf32Dec (bs : List Nat) : Option (List Char) :=
  match bs with
  | 0xFF :: 0xFE :: 0x00 :: 0x00 :: rest => utf32DecE false rest
  | 0x00 :: 0x00 :: 0xFE :: 0xFF :: rest => utf32DecE true rest
  | _ => utf32DecE false bs

/-- ASCII lowercase, Python `str.lower()` restricted to the ASCII letters
appearing in encoding names. -/
def asciiLower (l : List Char) : List Char :=
  l.map (fun c => if 'A' ≤ c ∧ c ≤ 'Z' then Char.ofNat (c.toNat + 32) else c)

/-- Codec lookup for a (lowercased) encoding name, with the common aliases
CPython accepts; an unknown name raises `LookupError` inside `open`, which
`read_file_content` catches like a decode failure (`none` here). -/
def codecFor (name : List Char) : Option (List Nat → Option (List Char)) :=
  if name = "utf-8".data ∨ name = "utf8".data then some utf8Dec
  else if name = "utf-8-sig".data then some utf8SigDec
  else if name = "latin1".data ∨ name = "latin-1".data ∨
          name = "iso-8859-1".data then some latin1Dec
  else if name = "cp1252".data ∨ name = "windows-1252".data then some cp1252Dec
  else if name = "ascii".data then some asciiDec
  else if name = "utf-16".data then some utf16Dec
  else if name = "utf-32".data then some utf32Dec
  else none

/-- Universal-newline translation performed by text-mode `open` with
`newline=None`: `"\r\n"` and lone `"\r"` both become `"\n"`. -/
def univNL : List Char → List Char
  | [] => []
  | '\r' :: '\n' :: rest => '\n' :: univNL rest
  | '\r' :: rest => '\n' :: univNL rest
  | c :: rest => c :: univNL rest

/-- The `chardet.detect` result as seen by `read_file_content`:
`result.get('encoding')` and `result.get('confidence', 0)`.  The detector
runs over the first 10000 bytes; its output is an oracle input to the
model.  The confidence is a `float`; it is embedded as a rational, exact
for the decimal literals the detector produces and for the `0.7`
threshold comparison. -/
structure ChardetResult where
  encoding : Option (List Char)
  confidence : ℚ

/-- The confidence gate: `if confidence < 0.7: detected_encoding = None`.
A `none` argument covers both `chardet` being unavailable (ImportError)
and a detection failure. -/
def gateDetected (d : Option ChardetResult) : Option (List Char) :=
  match d with
  | none => none
  | some r => if r.confidence < 7 / 10 then none else r.encoding

def defaultEncodings : List (List Char) :=
  ["utf-8", "utf-8-sig", "latin1", "cp1252", "ascii", "utf-16", "utf-32"].map
    String.data

/-- The dedup loop: keep each non-empty encoding name whose lowercase form
has not been seen, preserving order (`seen` accumulates lowercased
names). -/
def dedupEncs : List (List Char) → List (List Char) → List (List Char)
  | [], _ => []
  | e :: es, seen =>
    if e ≠ [] ∧ asciiLower e ∉ seen then
      e :: dedupEncs es (asciiLower e :: seen)
    else dedupEncs es seen

/-- `encodings_to_try` after deduplication: the accepted detected encoding
first, then the fixed fallbacks. -/
def buildCandidates (det : Option (List Char)) : List (List Char) :=
  dedupEncs (det.toList ++ defaultEncodings) []

/-- The decode loop: try each candidate in order, first success wins; a
failed decode or unknown codec name moves to the next candidate. -/
def tryCandidates : List (List Char) → List Nat → Option (List Char)
  | [], _ => none
  | c :: cs, bytes =>
    match codecFor (asciiLower c) with
    | none => tryCandidates cs bytes
    | some dec =>
      match dec bytes with
      | some t => some t
      | none => tryCandidates cs bytes

/-- `os.path.basename` under POSIX: everything after the last `'/'`. -/
def basename (l : List Char) : List Char :=
  (l.reverse.takeWhile (fun c => c ≠ '/')).reverse

def digChar (d : Nat) : Char := Char.ofNat (48 + d)

def natDigitsAux : Nat → Nat → List Char
  | 0, _ => []
  | fuel + 1, n =>
    if n < 10 then [digChar n]
    else natDigitsAux fuel (n / 10) ++ [digChar (n % 10)]

/-- Decimal digits of a natural number, most significant first. -/
def natDigits (n : Nat) : List Char := natDigitsAux (n + 1) n

def commaGroup : List Char → List Char
  | d1 :: d2 :: d3 :: d4 :: rest => d1 :: d2 :: d3 :: ',' :: commaGroup (d4 :: rest)
  | l => l

/-- Python `f"{file_size:,}"`: digits grouped in threes by commas. -/
def commaFmt (n : Nat) : List Char := (commaGroup (natDigits n).reverse).reverse

/-- Hundredths of `n / 1024 / 1024`, rounded half-to-even — the value
printed by `f"{file_size/1024/1024:.2f}"` (exact for all sizes where the
binary `float` division introduces no double rounding). -/
def mbHundredths (n : Nat) : Nat :=
  let num := n * 100
  let den := 1048576
  let q := num / den
  let r := num % den
  if 2 * r < den then q
  else if den < 2 * r then q + 1
  else if q % 2 = 0 then q else q + 1

def twoPad (k : Nat) : List Char := [digChar (k / 10 % 10), digChar (k % 10)]

def mbFmt (n : Nat) : List Char :=
  natDigits (mbHundredths n / 100) ++ '.' :: twoPad (mbHundredths n % 100)

/-- The fixed diagnostic markdown document returned when the PDF magic
marker is detected, transcribed from the f-string in
`read_file_content`. -/
def pdfDiagnostic (path : List Char) (size : Nat) : List Char :=
  "# PDF Document Detected\n\n**File**: ".data ++ basename path ++
  "\n**Size**: ".data ++ commaFmt size ++ " bytes (".data ++ mbFmt size ++
  (" MB)\n**Type**: PDF Document\n\n## Issue\n" ++
   "This file is a PDF document that was incorrectly saved with a .md extension.\n\n" ++
   "## Solutions\n" ++
   "1. **Rename the file**: Change the extension from .md to .pdf\n" ++
   "2. **Use a PDF reader**: Open the file with a PDF viewer\n" ++
   "3. **Convert to text**: Use a PDF-to-text converter\n\n" ++
   "## For DeepCode Processing\n" ++
   "To process this PDF with DeepCode:\n" ++
   "1. Rename the file to have a .pdf extension\n" ++
   "2. Upload it again - DeepCode will automatically extract and convert the content\n\n" ++
   "---\n" ++
   "*Auto-detected by DeepCode Encoding System*\n" ++
   "*Respecting your local development privacy preferences*\n").data

def pdfMagic : List Nat := [0x25, 0x50, 0x44, 0x46]

/-- `FileProcessor.read_file_content` for an existing file: `path` is the
file path, `bytes` its full content, `det` the detector oracle.  `none`
would mean an `IOError` escapes; the PDF check reads the first 10 bytes
(`f.read(10)`) and tests `header.startswith(b'%PDF')`. -/
def readFileContentModel (path : List Char) (bytes : List Nat)
    (det : Option ChardetResult) : Option (List Char) :=
  if (bytes.take 10).take 4 = pdfMagic then
    some (pdfDiagnostic path bytes.length)
  else
    match tryCandidates (buildCandidates (gateDetected det)) bytes with
    | some t => some (univNL t)
    | none => some (univNL (utf8Rep bytes))

/-!
## The `base_dir` rewrite of `process_file_input` (lines 379–391)
-/

def sentinelNames : List (List Char) :=
  ["deepcode_lab", "agent_folders"].map String.data

/-- Python `str.endswith(suffix)`. -/
def endsWithStr (s suffix : List Char) : Bool :=
  decide (s.reverse.take suffix.length = suffix.reverse)

/-- `os.path.join` under POSIX for two components. -/
def joinPath (a b : List Char) : List Char :=
  match b with
  | '/' :: _ => b
  | _ => if a = [] then b
         else if a.getLast? = some '/' then a ++ b
         else a ++ '/' :: b

/-- The `paper_dir` rewrite applied when `base_dir` is supplied (truthy)
in `process_file_input`: a directory ending in a default-lab sentinel
name becomes `base_dir` itself, any other directory becomes
`base_dir/papers/<basename>`; `os.makedirs(paper_dir, exist_ok=True)` is
then invoked on the returned path in both cases. -/
def adjustPaperDir (baseDir paperDir : List Char) : List Char :=
  if sentinelNames.any (endsWithStr paperDir) then baseDir
  else joinPath (joinPath baseDir "papers".data) (basename paperDir)

example :
    adjustPaperDir "/base".data "/home/u/deepcode_lab".data = "/base".data := by decide
example :
    adjustPaperDir "/base".data "/home/u/mypaper".data =
      "/base/papers/mypaper".data := by decide
set_option maxRecDepth 4096 in
example : readFileContentModel "/tmp/x.md".data [0x25, 0x50, 0x44, 0x46] none =
    some (pdfDiagnostic "/tmp/x.md".data 4) := by decide

/-!
## Lemmas about lines and trimming
-/

/-- The heading list of a text: the `(level, title)` pair of every heading
line, in order. -/
def headsOf (x : List Char) : List (Nat × List Char) :=
  (splitLines x).filterMap parseHead

theorem splitLines_ne_nil (x : List Char) : splitLines x ≠ [] := by
  cases x with
  | nil => simp [splitLines]
  | cons c rest =>
    simp only [splitLines]
    cases h : splitLines rest with
    | nil => simp
    | cons l ls => by_cases hc : c = '\n' <;> simp [hc]

theorem splitLines_append_nl (a b : List Char) :
    splitLines (a ++ '\n' :: b) = splitLines a ++ splitLines b := by
  induction a with
  | nil =>
    simp only [List.nil_append, splitLines]
    cases h : splitLines b with
    | nil => exact absurd h (splitLines_ne_nil b)
    | cons l ls => simp
  | cons c a ih =>
    simp only [List.cons_append, splitLines, List.append_eq]
    rw [ih]
    cases h : splitLines a with
    | nil => exact absurd h (splitLines_ne_nil a)
    | cons l ls =>
      by_cases hc : c = '\n' <;> simp [hc]

theorem noNL_of_mem_splitLines {x : List Char} {l : List Char}
    (h : l ∈ splitLines x) : noNL l = true := by
  induction x generalizing l with
  | nil =>
    simp only [splitLines, List.mem_singleton] at h
    subst h; rfl
  | cons c rest ih =>
    simp only [splitLines] at h
    cases hs : splitLines rest with
    | nil => exact absurd hs (splitLines_ne_nil rest)
    | cons m ms =>
      rw [hs] at h
      by_cases hc : c = '\n'
      · simp only [if_pos hc, List.mem_cons] at h
        rcases h with h | h | h
        · subst h; rfl
        · exact ih (by rw [hs]; exact List.mem_cons.mpr (Or.inl h))
        · exact ih (by rw [hs]; exact List.mem_cons_of_mem m h)
      · simp only [if_neg hc, List.mem_cons] at h
        rcases h with h | h
        · subst h
          have hm : noNL m = true := ih (by rw [hs]; exact List.mem_cons_self m ms)
          simp only [noNL, List.all_cons, Bool.and_eq_true] at hm ⊢
          refine ⟨by simpa using hc, hm⟩
        · exact ih (by rw [hs]; exact List.mem_cons_of_mem m h)

theorem splitLines_of_noNL {x : List Char} (h : noNL x = true) :
    splitLines x = [x] := by
  induction x with
  | nil => rfl
  | cons c rest ih =>
    simp [noNL] at h
    obtain ⟨hc, hrest⟩ := h
    simp only [splitLines, ih (by simpa [noNL] using hrest)]
    simp [hc]

theorem parseHead_nil : parseHead [] = none := rfl

theorem headsOf_nil : headsOf [] = [] := rfl

theorem headsOf_append_nl (a b : List Char) :
    headsOf (a ++ '\n' :: b) = headsOf a ++ headsOf b := by
  simp [headsOf, splitLines_append_nl, List.filterMap_append]

theorem headsOf_cons_nl (b : List Char) : headsOf ('\n' :: b) = headsOf b := by
  have := headsOf_append_nl [] b
  simpa [headsOf_nil] using this

theorem headsOf_of_noNL {a : List Char} (h : noNL a = true) :
    headsOf a = (parseHead a).toList := by
  simp only [headsOf, splitLines_of_noNL h]
  cases hp : parseHead a <;> simp [List.filterMap_cons, hp]

theorem headsOf_append_of_endNL (y r : List Char) :
    headsOf ((y ++ ['\n']) ++ r) = headsOf (y ++ ['\n']) ++ headsOf r := by
  have h1 : (y ++ ['\n']) ++ r = y ++ '\n' :: r := by simp
  have h2 : y ++ ['\n'] = y ++ '\n' :: ([] : List Char) := by simp
  rw [h1, headsOf_append_nl, h2, headsOf_append_nl, headsOf_nil, List.append_nil]

theorem ltrim_cons_of_space {c : Char} (h : isSpace c = true) (x : List Char) :
    ltrim (c :: x) = ltrim x := by
  simp [ltrim, List.dropWhile_cons, h]

theorem ltrim_cons_of_not_space {c : Char} (h : isSpace c = false) (x : List Char) :
    ltrim (c :: x) = c :: x := by
  simp [ltrim, List.dropWhile_cons, h]

theorem ltrim_shape (x : List Char) :
    ltrim x = [] ∨ ∃ c t, ltrim x = c :: t ∧ isSpace c = false := by
  induction x with
  | nil => left; rfl
  | cons c rest ih =>
    by_cases h : isSpace c = true
    · rw [ltrim_cons_of_space h]; exact ih
    · right
      exact ⟨c, rest, ltrim_cons_of_not_space (by simpa using h) rest, by simpa using h⟩

theorem ltrim_idem (x : List Char) : ltrim (ltrim x) = ltrim x := by
  rcases ltrim_shape x with h | ⟨c, t, h, hc⟩
  · rw [h]; rfl
  · rw [h, ltrim_cons_of_not_space hc]

theorem rtrim_idem (x : List Char) : rtrim (rtrim x) = rtrim x := by
  simp [rtrim, ltrim_idem]

theorem rtrim_eq_rdropWhile (x : List Char) :
    rtrim x = x.rdropWhile isSpace := rfl

theorem ltrim_rtrim_ltrim (x : List Char) :
    ltrim (rtrim (ltrim x)) = rtrim (ltrim x) := by
  rcases ltrim_shape x with h | ⟨c, t, h, hc⟩
  · rw [h]; rfl
  · rw [h]
    have hpre : rtrim (c :: t) <+: (c :: t) := by
      rw [rtrim_eq_rdropWhile]; exact List.rdropWhile_prefix _ _
    cases he : rtrim (c :: t) with
    | nil => rfl
    | cons d u =>
      rw [he] at hpre
      obtain ⟨r, hr⟩ := hpre
      have hd : d = c := by
        have := hr
        simp only [List.cons_append] at this
        exact (List.cons.injEq _ _ _ _ ▸ this).1
      subst hd
      exact ltrim_cons_of_not_space hc u

theorem pyStrip_idem (x : List Char) : pyStrip (pyStrip x) = pyStrip x := by
  unfold pyStrip
  rw [ltrim_rtrim_ltrim, rtrim_idem]

theorem ltrim_pyStrip (x : List Char) : ltrim (pyStrip x) = pyStrip x :=
  ltrim_rtrim_ltrim x

theorem rtrim_pyStrip (x : List Char) : rtrim (pyStrip x) = pyStrip x :=
  rtrim_idem (ltrim x)

theorem ltrim_append (a b : List Char) :
    ltrim (a ++ b) = if ltrim a = [] then ltrim b else ltrim a ++ b := by
  simp only [ltrim, List.dropWhile_append]
  rcases h : List.dropWhile isSpace a with _ | ⟨c, t⟩ <;> simp

theorem rtrim_nil_iff_reverse (b : List Char) :
    rtrim b = [] ↔ ltrim b.reverse = [] := by
  constructor
  · intro h
    have := congrArg List.reverse h
    simpa [rtrim] using this
  · intro h; simp [rtrim, h]

theorem rtrim_nil : rtrim [] = [] := rfl

theorem rtrim_append (a b : List Char) :
    rtrim (a ++ b) = if rtrim b = [] then rtrim a else a ++ rtrim b := by
  by_cases h : rtrim b = []
  · rw [if_pos h]
    have hb : ltrim b.reverse = [] := (rtrim_nil_iff_reverse b).mp h
    show (ltrim (a ++ b).reverse).reverse = rtrim a
    rw [List.reverse_append, ltrim_append, if_pos hb]
    rfl
  · rw [if_neg h]
    have hb : ltrim b.reverse ≠ [] := fun hh => h ((rtrim_nil_iff_reverse b).mpr hh)
    show (ltrim (a ++ b).reverse).reverse = a ++ rtrim b
    rw [List.reverse_append, ltrim_append, if_neg hb, List.reverse_append,
      List.reverse_reverse]
    rfl

theorem noNL_ltrim {l : List Char} (h : noNL l = true) : noNL (ltrim l) = true := by
  simp only [noNL, List.all_eq_true] at h ⊢
  intro c hc
  exact h c ((List.dropWhile_sublist isSpace).subset hc)

theorem noNL_rtrim {l : List Char} (h : noNL l = true) : noNL (rtrim l) = true := by
  simp only [noNL, List.all_eq_true] at h ⊢
  intro c hc
  simp only [rtrim, List.mem_reverse] at hc
  exact h c (by
    have := (List.dropWhile_sublist isSpace).subset hc
    simpa using this)

/-- `joinLines` on a list with a non-empty tail. -/
theorem joinLines_cons (l : List Char) (ls : List (List Char)) (h : ls ≠ []) :
    joinLines (l :: ls) = l ++ '\n' :: joinLines ls := by
  cases ls with
  | nil => exact absurd rfl h
  | cons m ms => rfl

theorem splitLines_joinLines :
    ∀ cls : List (List Char), cls ≠ [] → (∀ l ∈ cls, noNL l = true) →
    splitLines (joinLines cls) = cls
  | [], h, _ => absurd rfl h
  | [l], _, hn => by
    simpa [joinLines] using splitLines_of_noNL (hn l (List.mem_singleton_self l))
  | l :: m :: ms, _, hn => by
    rw [joinLines_cons l (m :: ms) (by simp), splitLines_append_nl,
      splitLines_of_noNL (hn l (List.mem_cons_self _ _)),
      splitLines_joinLines (m :: ms) (by simp)
        (fun x hx => hn x (List.mem_cons_of_mem l hx))]
    rfl

/-- The effect of `lstrip` on the lines of a text: drop all-whitespace
leading lines, left-trim the first survivor. -/
def ltrimLines : List (List Char) → List (List Char)
  | [] => []
  | l :: ls => if ltrim l = [] then ltrimLines ls else ltrim l :: ls

def rtrimLinesCons (l : List Char) : List (List Char) → List (List Char)
  | [] => if rtrim l = [] then [] else [rtrim l]
  | r :: rs => l :: r :: rs

/-- The effect of `rstrip` on the lines of a text: drop all-whitespace
trailing lines, right-trim the last survivor. -/
def rtrimLines : List (List Char) → List (List Char)
  | [] => []
  | l :: ls => rtrimLinesCons l (rtrimLines ls)

theorem isSpace_nl : isSpace '\n' = true := by decide

theorem ltrim_cons_nl (z : List Char) : ltrim ('\n' :: z) = ltrim z :=
  ltrim_cons_of_space isSpace_nl z

theorem ltrim_joinLines :
    ∀ cls : List (List Char), ltrim (joinLines cls) = joinLines (ltrimLines cls)
  | [] => rfl
  | [l] => by
    simp only [joinLines, ltrimLines]
    by_cases h : ltrim l = [] <;> simp [h, joinLines]
  | l :: m :: ms => by
    rw [joinLines_cons l (m :: ms) (by simp), ltrim_append]
    by_cases h : ltrim l = []
    · rw [if_pos h, ltrim_cons_nl, ltrim_joinLines (m :: ms)]
      simp [ltrimLines, h]
    · rw [if_neg h]
      simp only [ltrimLines, if_neg h]
      rw [joinLines_cons _ (m :: ms) (by simp)]

theorem rtrim_cons_nl (z : List Char) :
    rtrim ('\n' :: z) = if rtrim z = [] then [] else '\n' :: rtrim z := by
  have h := rtrim_append ['\n'] z
  simp only [List.singleton_append] at h
  rw [h]
  have : rtrim ['\n'] = [] := by decide
  by_cases hz : rtrim z = [] <;> simp [hz, this]

theorem rtrimLines_cons (l : List Char) (ls : List (List Char)) :
    rtrimLines (l :: ls) = rtrimLinesCons l (rtrimLines ls) := rfl

theorem rtrim_joinLines :
    ∀ cls : List (List Char),
      rtrim (joinLines cls) = joinLines (rtrimLines cls) ∧
      (rtrim (joinLines cls) = [] ↔ rtrimLines cls = [])
  | [] => ⟨rfl, by simp [joinLines, rtrimLines, rtrim_nil]⟩
  | [l] => by
    have : joinLines [l] = l := rfl
    rw [this, rtrimLines_cons]
    by_cases h : rtrim l = [] <;>
      simp [rtrimLines, rtrimLinesCons, h, joinLines]
  | l :: m :: ms => by
    obtain ⟨ih1, ih2⟩ := rtrim_joinLines (m :: ms)
    rw [joinLines_cons l (m :: ms) (by simp), rtrim_append, rtrim_cons_nl,
      rtrimLines_cons]
    by_cases h : rtrim (joinLines (m :: ms)) = []
    · have hms : rtrimLines (m :: ms) = [] := ih2.mp h
      rw [h, if_pos rfl, hms]
      by_cases hl : rtrim l = [] <;> simp [rtrimLinesCons, hl, joinLines]
    · have hms : rtrimLines (m :: ms) ≠ [] := fun hh => h (ih2.mpr hh)
      rw [if_neg h]
      have hne : ('\n' :: rtrim (joinLines (m :: ms))) ≠ [] := by simp
      rw [if_neg hne]
      cases hr : rtrimLines (m :: ms) with
      | nil => exact absurd hr hms
      | cons r rs =>
        constructor
        · show l ++ '\n' :: rtrim (joinLines (m :: ms)) =
            joinLines (rtrimLinesCons l (r :: rs))
          rw [ih1, hr]
          show _ = joinLines (l :: r :: rs)
          rw [joinLines_cons l (r :: rs) (by simp)]
        · constructor
          · intro hh
            exact absurd hh (by simp)
          · intro hh
            simp [rtrimLinesCons] at hh

theorem mem_ltrimLines {m : List Char} :
    ∀ {cls : List (List Char)}, m ∈ ltrimLines cls →
      m ∈ cls ∨ ∃ l, l ∈ cls ∧ m = ltrim l := by
  intro cls
  induction cls with
  | nil => intro h; simp [ltrimLines] at h
  | cons l ls ih =>
    intro h
    simp only [ltrimLines] at h
    by_cases hl : ltrim l = []
    · rw [if_pos hl] at h
      rcases ih h with h2 | ⟨l2, hl2, he⟩
      · exact Or.inl (List.mem_cons_of_mem l h2)
      · exact Or.inr ⟨l2, List.mem_cons_of_mem l hl2, he⟩
    · rw [if_neg hl] at h
      rcases List.mem_cons.mp h with h2 | h2
      · exact Or.inr ⟨l, List.mem_cons_self l ls, h2⟩
      · exact Or.inl (List.mem_cons_of_mem l h2)

theorem mem_rtrimLines {m : List Char} :
    ∀ {cls : List (List Char)}, m ∈ rtrimLines cls →
      m ∈ cls ∨ ∃ l, l ∈ cls ∧ m = rtrim l := by
  intro cls
  induction cls with
  | nil => intro h; simp [rtrimLines] at h
  | cons l ls ih =>
    intro h
    rw [rtrimLines_cons] at h
    cases hr : rtrimLines ls with
    | nil =>
      rw [hr] at h
      simp only [rtrimLinesCons] at h
      by_cases hl : rtrim l = []
      · rw [if_pos hl] at h; simp at h
      · rw [if_neg hl] at h
        rcases List.mem_singleton.mp h with h2
        exact Or.inr ⟨l, List.mem_cons_self l ls, h2⟩
    | cons r rs =>
      rw [hr] at h
      simp only [rtrimLinesCons] at h
      rcases List.mem_cons.mp h with h2 | h2
      · exact Or.inl (h2 ▸ List.mem_cons_self l ls)
      · rcases ih (hr ▸ h2) with h3 | ⟨l2, hl2, he⟩
        · exact Or.inl (List.mem_cons_of_mem l h3)
        · exact Or.inr ⟨l2, List.mem_cons_of_mem l hl2, he⟩

/-!
## Heading lines survive trailing whitespace; headings in stripped content
-/

theorem space_not_hash {c : Char} (h : isSpace c = true) : ¬(c = '#') := by
  intro he; subst he; exact absurd h (by decide)

theorem break_append (p : Char → Bool) (a w : List Char)
    (h : a.dropWhile p ≠ []) :
    (a ++ w).takeWhile p = a.takeWhile p ∧
    (a ++ w).dropWhile p = a.dropWhile p ++ w := by
  induction a with
  | nil => exact absurd rfl h
  | cons c a2 ih =>
    by_cases hc : p c
    · have h2 : a2.dropWhile p ≠ [] := by
        simpa [List.dropWhile_cons, hc] using h
      obtain ⟨t1, t2⟩ := ih h2
      constructor <;>
        simp [List.takeWhile_cons, List.dropWhile_cons, hc, t1, t2]
    · constructor <;> simp [List.takeWhile_cons, List.dropWhile_cons, hc]

theorem parseHead_eq_some {l : List Char} {n : Nat} {t : List Char}
    (h : parseHead l = some (n, t)) :
    n = (l.takeWhile (fun c => c = '#')).length ∧ 1 ≤ n ∧ n ≤ 6 ∧
    t = pyStrip (l.dropWhile (fun c => c = '#')) ∧
    ∃ x y ys, l.dropWhile (fun c => c = '#') = x :: y :: ys ∧
      isSpace x = true := by
  cases hr : l.dropWhile (fun c => c = '#') with
  | nil => simp [parseHead, hr] at h
  | cons x rest1 =>
    cases rest1 with
    | nil => simp [parseHead, hr] at h
    | cons y ys =>
      simp only [parseHead, hr] at h
      split_ifs at h with hcond
      simp only [Option.some.injEq, Prod.mk.injEq] at h
      exact ⟨h.1.symm, h.1 ▸ hcond.1, h.1 ▸ hcond.2.1, h.2.symm,
        x, y, ys, rfl, hcond.2.2⟩

/-- A line that matches the heading regex still matches after appending
any tail: `\s+` and `.+` split the remainder, and a longer remainder
still satisfies them. -/
theorem parseHead_append_ws {a w : List Char} {p : Nat × List Char}
    (ha : parseHead a = some p) : ∃ q, parseHead (a ++ w) = some q := by
  obtain ⟨pn, pt⟩ := p
  obtain ⟨hn, h1, h6, ht, x, y, ys, hr, hx⟩ := parseHead_eq_some ha
  have hne : a.dropWhile (fun c => c = '#') ≠ [] := by rw [hr]; simp
  obtain ⟨t1, t2⟩ := break_append (fun c => c = '#') a w hne
  refine ⟨((a.takeWhile (fun c => c = '#')).length,
    pyStrip (x :: y :: (ys ++ w))), ?_⟩
  have hr2 : (a ++ w).dropWhile (fun c => c = '#') = x :: y :: (ys ++ w) := by
    rw [t2, hr]; simp
  simp only [parseHead, hr2, t1]
  rw [if_pos ⟨hn ▸ h1, hn ▸ h6, hx⟩]

theorem rtrim_decomp (l : List Char) :
    ∃ w, l = rtrim l ++ w ∧ ∀ c ∈ w, isSpace c = true := by
  refine ⟨(l.reverse.takeWhile isSpace).reverse, ?_, ?_⟩
  · conv_lhs => rw [← List.reverse_reverse l,
      ← List.takeWhile_append_dropWhile isSpace l.reverse]
    rw [List.reverse_append]
    rfl
  · intro c hc
    rw [List.mem_reverse] at hc
    exact List.mem_takeWhile_imp hc

theorem parseHead_rtrim_none {l : List Char} (h : parseHead l = none) :
    parseHead (rtrim l) = none := by
  cases hp : parseHead (rtrim l) with
  | none => rfl
  | some p =>
    obtain ⟨w, hw1, _⟩ := rtrim_decomp l
    obtain ⟨q, hq⟩ := parseHead_append_ws hp
    rw [← hw1, h] at hq
    exact absurd hq (by simp)

/-- The central safety property of stored section content: if every
accumulated line is a non-heading line that stays non-heading after left
trimming, then the stripped joined content contains no heading line. -/
theorem headsOf_pyStrip_joinLines {cls : List (List Char)}
    (h : ∀ l ∈ cls, parseHead l = none ∧ parseHead (ltrim l) = none ∧
      noNL l = true) :
    headsOf (pyStrip (joinLines cls)) = [] := by
  have hstrip : pyStrip (joinLines cls) =
      joinLines (rtrimLines (ltrimLines cls)) := by
    unfold pyStrip
    rw [ltrim_joinLines, (rtrim_joinLines (ltrimLines cls)).1]
  rw [hstrip]
  have helem : ∀ m ∈ rtrimLines (ltrimLines cls),
      parseHead m = none ∧ noNL m = true := by
    intro m hm
    have fromL : ∀ m2 ∈ ltrimLines cls,
        parseHead m2 = none ∧ noNL m2 = true := by
      intro m2 hm2
      rcases mem_ltrimLines hm2 with h2 | ⟨l2, hl2, he2⟩
      · exact ⟨(h m2 h2).1, (h m2 h2).2.2⟩
      · obtain ⟨_, hb, hcn⟩ := h l2 hl2
        exact ⟨he2 ▸ hb, he2 ▸ noNL_ltrim hcn⟩
    rcases mem_rtrimLines hm with h1 | ⟨l1, hl1, he⟩
    · exact fromL m h1
    · obtain ⟨ha, hb⟩ := fromL l1 hl1
      exact ⟨he ▸ parseHead_rtrim_none ha, he ▸ noNL_rtrim hb⟩
  cases hcc : rtrimLines (ltrimLines cls) with
  | nil => rfl
  | cons r rs =>
    rw [hcc] at helem
    unfold headsOf
    rw [splitLines_joinLines (r :: rs) (by simp)
      (fun x hx => (helem x hx).2)]
    exact List.filterMap_eq_nil_iff.mpr (fun x hx => (helem x hx).1)

/-!
## Hierarchy building preserves the pre-order section sequence
-/

/-- Pre-order contribution of the pending stack (top first): the top will
be attached, transitively, as last descendant of the bottom. -/
def flatStack : List Sec → List (Nat × List Char × List Char)
  | [] => []
  | t :: rest => flatStack rest ++ flatS t

theorem flatF_appendF : ∀ a b : Forest, flatF (appendF a b) = flatF a ++ flatF b
  | .nil, _ => by simp [appendF, flatF]
  | .cons s f, b => by
    simp [appendF, flatF, flatF_appendF f b]

theorem addSub_level (u t : Sec) : (addSub u t).level = u.level := by
  cases u; rfl

theorem Sec.level_mk (l : Nat) (t c : List Char) (f : Forest) :
    (Sec.mk l t c f).level = l := rfl

theorem flatS_addSub (u t : Sec) : flatS (addSub u t) = flatS u ++ flatS t := by
  cases u with
  | mk l ti c f => simp [addSub, flatS, flatF_appendF, flatF]

theorem popAux_flat : ∀ (rest : List Sec) (t : Sec) (res : Forest) (lvl : Nat),
    flatF (popAux lvl t rest res).2 ++ flatStack (popAux lvl t rest res).1 =
    flatF res ++ flatStack rest ++ flatS t
  | [], t, res, lvl => by
    simp only [popAux]
    by_cases h : lvl ≤ t.level <;>
      simp [h, flatStack, flatF_appendF, flatF, List.append_assoc]
  | u :: rest2, t, res, lvl => by
    simp only [popAux]
    by_cases h : lvl ≤ t.level
    · rw [if_pos h]
      rw [popAux_flat rest2 (addSub u t) res lvl]
      simp [flatStack, flatS_addSub, List.append_assoc]
    · rw [if_neg h]
      simp [flatStack, List.append_assoc]

theorem popAux_zero_stack : ∀ (rest : List Sec) (t : Sec) (res : Forest),
    (popAux 0 t rest res).1 = []
  | [], t, res => by simp [popAux]
  | u :: rest2, t, res => by
    simp only [popAux, Nat.zero_le, if_pos]
    exact popAux_zero_stack rest2 (addSub u t) res

theorem organizeAux_flat : ∀ (f : Forest) (stack : List Sec) (res : Forest),
    flatF (organizeAux f stack res) = flatF res ++ flatStack stack ++ flatF f
  | .nil, [], res => by simp [organizeAux, flatStack, flatF]
  | .nil, t :: rest, res => by
    have h1 := popAux_flat rest t res 0
    rw [popAux_zero_stack rest t res] at h1
    simp only [flatStack, List.append_nil] at h1
    simp only [organizeAux, flatF, List.append_nil, h1, flatStack,
      List.append_assoc]
  | .cons s f, [], res => by
    simp only [organizeAux]
    rw [organizeAux_flat f [s] res]
    simp [flatStack, flatF, List.append_assoc]
  | .cons s f, t :: rest, res => by
    simp only [organizeAux]
    calc flatF (organizeAux f (s :: (popAux s.level t rest res).1)
            (popAux s.level t rest res).2)
        = flatF (popAux s.level t rest res).2 ++
            flatStack (s :: (popAux s.level t rest res).1) ++ flatF f :=
          organizeAux_flat f _ _
      _ = (flatF (popAux s.level t rest res).2 ++
            flatStack (popAux s.level t rest res).1) ++ (flatS s ++ flatF f) := by
          simp [flatStack, List.append_assoc]
      _ = (flatF res ++ flatStack rest ++ flatS t) ++ (flatS s ++ flatF f) := by
          rw [popAux_flat rest t res s.level]
      _ = flatF res ++ flatStack (t :: rest) ++ flatF (.cons s f) := by
          simp [flatStack, flatF, List.append_assoc]

/-- `_organize_sections` neither drops, duplicates nor reorders sections:
the pre-order triple sequence of its output equals that of its input. -/
theorem organize_flat (f : Forest) : flatF (organize f) = flatF f := by
  have := organizeAux_flat f [] .nil
  simpa [organize, flatStack, flatF] using this

theorem isNilF_eq_nil {f : Forest} (h : isNilF f = true) : f = .nil := by
  cases f with
  | nil => rfl
  | cons s g => simp [isNilF] at h

theorem flatF_of_allFlat : ∀ f : Forest, allFlatF f = true → flatF f = projF f
  | .nil, _ => rfl
  | .cons s f, h => by
    simp only [allFlatF, Bool.and_eq_true] at h
    cases s with
    | mk l t c ss =>
      have hnil : ss = .nil := isNilF_eq_nil h.1
      subst hnil
      simp only [flatF, flatS, projF, Sec.level, Sec.title, Sec.content]
      rw [flatF_of_allFlat f h.2]
      rfl

/-!
## Hierarchy building establishes the strict level invariant
-/

theorem goodAbove_appendF : ∀ (l : Nat) (a b : Forest),
    goodAbove l (appendF a b) = (goodAbove l a && goodAbove l b)
  | _, .nil, b => by simp [appendF, goodAbove]
  | l, .cons s f, b => by
    simp [appendF, goodAbove, goodAbove_appendF l f b, Bool.and_assoc]

theorem goodF_appendF : ∀ a b : Forest, goodF (appendF a b) = (goodF a && goodF b)
  | .nil, b => by simp [appendF, goodF]
  | .cons s f, b => by
    simp [appendF, goodF, goodF_appendF f b, Bool.and_assoc]

theorem goodS_addSub {u t : Sec} (hu : goodS u = true) (ht : goodS t = true)
    (hlt : u.level < t.level) : goodS (addSub u t) = true := by
  cases u with
  | mk l ti c f =>
    rw [Sec.level_mk] at hlt
    simp only [addSub, goodS, goodAbove_appendF, Bool.and_eq_true]
    exact ⟨by simpa [goodS] using hu, by simp [goodAbove, hlt, ht]⟩

def stackOK : List Sec → Bool
  | [] => true
  | [t] => goodS t
  | t :: u :: rest => (goodS t && decide (u.level < t.level)) && stackOK (u :: rest)

theorem stackOK_head_good : ∀ {t : Sec} {rest : List Sec},
    stackOK (t :: rest) = true → goodS t = true := by
  intro t rest h
  cases rest <;> simp only [stackOK, Bool.and_eq_true] at h
  · exact h
  · exact h.1.1

theorem stackOK_pair {t u : Sec} {rest : List Sec}
    (h : stackOK (t :: u :: rest) = true) : u.level < t.level := by
  simp only [stackOK, Bool.and_eq_true, decide_eq_true_eq] at h
  exact h.1.2

theorem stackOK_tail {t u : Sec} {rest : List Sec}
    (h : stackOK (t :: u :: rest) = true) : stackOK (u :: rest) = true := by
  simp only [stackOK, Bool.and_eq_true] at h
  rcases h with ⟨_, h2⟩
  cases rest <;> simpa [stackOK] using h2

theorem stackOK_replace {u w : Sec} {rest : List Sec}
    (h : stackOK (u :: rest) = true) (hw : goodS w = true)
    (hlv : w.level = u.level) : stackOK (w :: rest) = true := by
  cases rest with
  | nil => simpa [stackOK] using hw
  | cons v vs =>
    simp only [stackOK, Bool.and_eq_true, decide_eq_true_eq] at h ⊢
    exact ⟨⟨hw, hlv ▸ h.1.2⟩, h.2⟩

theorem stackOK_push {s h : Sec} {tl : List Sec}
    (hst : stackOK (h :: tl) = true) (hs : goodS s = true)
    (hlt : h.level < s.level) : stackOK (s :: h :: tl) = true := by
  simp only [stackOK, Bool.and_eq_true, decide_eq_true_eq]
  exact ⟨⟨hs, hlt⟩, by cases tl <;> simpa [stackOK] using hst⟩

theorem popAux_good : ∀ (rest : List Sec) (t : Sec) (res : Forest) (lvl : Nat),
    stackOK (t :: rest) = true → goodF res = true →
    goodF (popAux lvl t rest res).2 = true ∧
    stackOK (popAux lvl t rest res).1 = true ∧
    ((popAux lvl t rest res).1 = [] ∨
      ∃ h tl, (popAux lvl t rest res).1 = h :: tl ∧ h.level < lvl)
  | [], t, res, lvl, hst, hres => by
    simp only [popAux]
    by_cases h : lvl ≤ t.level
    · rw [if_pos h]
      refine ⟨?_, rfl, Or.inl rfl⟩
      rw [goodF_appendF]
      simp only [goodF, Bool.and_eq_true]
      exact ⟨hres, by simpa using stackOK_head_good hst⟩
    · rw [if_neg h]
      exact ⟨hres, hst, Or.inr ⟨t, [], rfl, Nat.lt_of_not_le h⟩⟩
  | u :: rest2, t, res, lvl, hst, hres => by
    simp only [popAux]
    by_cases h : lvl ≤ t.level
    · rw [if_pos h]
      refine popAux_good rest2 (addSub u t) res lvl ?_ hres
      have htail : stackOK (u :: rest2) = true := stackOK_tail hst
      have hmerge : goodS (addSub u t) = true :=
        goodS_addSub (stackOK_head_good htail) (stackOK_head_good hst)
          (stackOK_pair hst)
      exact stackOK_replace htail hmerge (addSub_level u t)
    · rw [if_neg h]
      exact ⟨hres, hst, Or.inr ⟨t, u :: rest2, rfl, Nat.lt_of_not_le h⟩⟩

theorem goodS_of_flat {s : Sec} (h : isNilF s.subs = true) : goodS s = true := by
  cases s with
  | mk l t c ss =>
    have : ss = .nil := isNilF_eq_nil (by simpa [Sec.subs] using h)
    subst this
    rfl

theorem organizeAux_good : ∀ (f : Forest) (stack : List Sec) (res : Forest),
    allFlatF f = true → stackOK stack = true → goodF res = true →
    goodF (organizeAux f stack res) = true
  | .nil, [], _, _, _, hres => hres
  | .nil, t :: rest, res, _, hst, hres =>
    (popAux_good rest t res 0 hst hres).1
  | .cons s f, [], res, hf, _, hres => by
    simp only [allFlatF, Bool.and_eq_true] at hf
    exact organizeAux_good f [s] res hf.2
      (by simpa [stackOK] using goodS_of_flat hf.1) hres
  | .cons s f, t :: rest, res, hf, hst, hres => by
    simp only [allFlatF, Bool.and_eq_true] at hf
    simp only [organizeAux]
    obtain ⟨pres, pstack, ppos⟩ := popAux_good rest t res s.level hst hres
    refine organizeAux_good f _ _ hf.2 ?_ pres
    rcases ppos with hnil | ⟨h, tl, he, hlt⟩
    · rw [hnil]
      simpa [stackOK] using goodS_of_flat hf.1
    · rw [he]
      exact stackOK_push (he ▸ pstack) (goodS_of_flat hf.1) hlt

/-- `_organize_sections` establishes the strict parent–child level
invariant on every node, for every flat input. -/
theorem organize_good {f : Forest} (hf : allFlatF f = true) :
    goodF (organize f) = true :=
  organizeAux_good f [] .nil hf rfl rfl

/-!
## The scanner output as a function of the heading lines
-/

def pendLT : Option Pend → List (Nat × List Char)
  | none => []
  | some p => [(p.level, p.title)]

theorem flatLT_nil : flatLT .nil = [] := rfl

theorem flatLT_cons (s : Sec) (f : Forest) :
    flatLT (.cons s f) = (flatS s).map (fun x => (x.1, x.2.1)) ++ flatLT f := by
  simp [flatLT, flatF]

theorem flatS_closePend (p : Pend) :
    flatS (closePend p) = [(p.level, p.title, pyStrip (joinLines p.clines))] := rfl

/-- The `(level, title)` sequence the scanner emits is exactly the list of
heading-line matches, one per heading line, in order. -/
theorem scan_flatLT : ∀ (ls : List (List Char)) (pend : Option Pend),
    flatLT (scanLines ls pend) = pendLT pend ++ ls.filterMap parseHead
  | [], none => rfl
  | [], some p => by
    simp [scanLines, flatLT_cons, flatS_closePend, pendLT, flatLT_nil]
  | l :: ls, pend => by
    cases hp : parseHead l with
    | some q =>
      obtain ⟨lv, tt⟩ := q
      cases pend with
      | none =>
        simp only [scanLines, hp]
        rw [scan_flatLT ls (some ⟨lv, tt, []⟩)]
        simp [pendLT, List.filterMap_cons, hp]
      | some p =>
        simp only [scanLines, hp]
        rw [flatLT_cons, flatS_closePend]
        rw [scan_flatLT ls (some ⟨lv, tt, []⟩)]
        simp [pendLT, List.filterMap_cons, hp]
    | none =>
      cases pend with
      | none =>
        simp only [scanLines, hp]
        rw [scan_flatLT ls none]
        simp [pendLT, List.filterMap_cons, hp]
      | some p =>
        simp only [scanLines, hp]
        rw [scan_flatLT ls (some ⟨p.level, p.title, p.clines ++ [l]⟩)]
        simp [pendLT, List.filterMap_cons, hp]

/-- The heading sequence of a parse: `parse_markdown_sections` in
pre-order carries exactly the heading-line matches of the input text. -/
theorem parse_flatLT (content : List Char) :
    flatLT (parseMarkdownSections content) =
      (splitLines content).filterMap parseHead := by
  unfold parseMarkdownSections flatLT
  rw [organize_flat]
  have := scan_flatLT (splitLines content) none
  simpa [flatLT, pendLT] using this

/-!
## Node well-formedness carried from the scanner through the builder
-/

/-- Well-formedness of one `(level, title, content)` triple: heading level
within 1–6; title non-empty, trim-invariant and newline-free; content
strip-invariant and free of heading lines. -/
def okTriple (x : Nat × List Char × List Char) : Bool :=
  decide (1 ≤ x.1) && decide (x.1 ≤ 6) && decide (x.2.1 ≠ []) &&
  decide (ltrim x.2.1 = x.2.1) && decide (rtrim x.2.1 = x.2.1) &&
  noNL x.2.1 && decide (pyStrip x.2.2 = x.2.2) && decide (headsOf x.2.2 = [])

/-- A line fit for an exact round trip: a heading line must have a
non-empty (after trimming) title, a content line must stay a non-heading
line after left trimming. -/
def lineGood (l : List Char) : Bool :=
  match parseHead l with
  | some (_, t) => decide (t ≠ [])
  | none => decide (parseHead (ltrim l) = none)

def pendOk (p : Pend) : Prop :=
  1 ≤ p.level ∧ p.level ≤ 6 ∧ p.title ≠ [] ∧ ltrim p.title = p.title ∧
  rtrim p.title = p.title ∧ noNL p.title = true ∧
  ∀ cl ∈ p.clines,
    parseHead cl = none ∧ parseHead (ltrim cl) = none ∧ noNL cl = true

theorem noNL_subset {a b : List Char} (h : ∀ c ∈ a, c ∈ b)
    (hb : noNL b = true) : noNL a = true := by
  simp only [noNL, List.all_eq_true] at hb ⊢
  exact fun c hc => hb c (h c hc)

theorem noNL_pyStrip {l : List Char} (h : noNL l = true) :
    noNL (pyStrip l) = true := noNL_rtrim (noNL_ltrim h)

theorem okTriple_closePend {p : Pend} (h : pendOk p) :
    okTriple (p.level, p.title, pyStrip (joinLines p.clines)) = true := by
  obtain ⟨h1, h2, h3, h4, h5, h6, h7⟩ := h
  simp only [okTriple, Bool.and_eq_true, decide_eq_true_eq]
  refine ⟨⟨⟨⟨⟨⟨⟨h1, h2⟩, h3⟩, h4⟩, h5⟩, h6⟩, pyStrip_idem _⟩,
    headsOf_pyStrip_joinLines h7⟩

theorem pendOk_of_head {l : List Char} {lv : Nat} {tt : List Char}
    (hp : parseHead l = some (lv, tt)) (hn : noNL l = true)
    (hg : lineGood l = true) : pendOk ⟨lv, tt, []⟩ := by
  obtain ⟨hlen, h1, h6, ht, x, y, ys, hr, hx⟩ := parseHead_eq_some hp
  have htne : tt ≠ [] := by
    simp only [lineGood, hp, decide_eq_true_eq] at hg
    exact hg
  have hnt : noNL tt = true := by
    rw [ht]
    refine noNL_pyStrip (noNL_subset ?_ hn)
    intro c hc
    exact (List.dropWhile_sublist (fun c => c = '#')).subset hc
  exact ⟨h1, h6, htne, ht ▸ ltrim_pyStrip _, ht ▸ rtrim_pyStrip _, hnt,
    fun cl hcl => absurd hcl (List.not_mem_nil cl)⟩

theorem pendOk_add_line {p : Pend} {l : List Char} (hp : pendOk p)
    (hl : parseHead l = none) (hn : noNL l = true) (hg : lineGood l = true) :
    pendOk ⟨p.level, p.title, p.clines ++ [l]⟩ := by
  obtain ⟨h1, h2, h3, h4, h5, h6, h7⟩ := hp
  refine ⟨h1, h2, h3, h4, h5, h6, ?_⟩
  intro cl hcl
  rcases List.mem_append.mp hcl with hcl | hcl
  · exact h7 cl hcl
  · rw [List.mem_singleton.mp hcl]
    refine ⟨hl, ?_, hn⟩
    simp only [lineGood, hl, decide_eq_true_eq] at hg
    exact hg

/-!
## The renderer emits exactly the pre-order heading sequence
-/

theorem headsOf_block2 (a z : List Char) :
    headsOf ('\n' :: (a ++ '\n' :: z)) = headsOf a ++ headsOf z := by
  rw [headsOf_cons_nl, headsOf_append_nl]

theorem headsOf_block (a z : List Char) (hnl : noNL a = true) :
    headsOf ('\n' :: (a ++ '\n' :: z)) = (parseHead a).toList ++ headsOf z := by
  rw [headsOf_block2, headsOf_of_noNL hnl]

theorem noNL_append (a b : List Char) : noNL (a ++ b) = (noNL a && noNL b) := by
  simp [noNL]

theorem noNL_replicate_hash (l : Nat) : noNL (List.replicate l '#') = true := by
  simp only [noNL, List.all_eq_true]
  intro c hc
  rw [List.eq_of_mem_replicate hc]
  decide

theorem takeWhile_hash_repl (l : Nat) (t : List Char) :
    (List.replicate l '#' ++ ' ' :: t).takeWhile (fun c => c = '#') =
      List.replicate l '#' ∧
    (List.replicate l '#' ++ ' ' :: t).dropWhile (fun c => c = '#') =
      ' ' :: t := by
  induction l with
  | zero => simp [List.takeWhile_cons, List.dropWhile_cons]
  | succ n ih =>
    simp [List.replicate_succ, List.takeWhile_cons, List.dropWhile_cons,
      ih.1, ih.2]

theorem isSpace_blank : isSpace ' ' = true := by decide

/-- A rendered heading line re-parses to exactly its `(level, title)`. -/
theorem parseHead_headline {l : Nat} {t : List Char} (h1 : 1 ≤ l) (h6 : l ≤ 6)
    (hne : t ≠ []) (hlt : ltrim t = t) (hrt : rtrim t = t) :
    parseHead (List.replicate l '#' ++ ' ' :: t) = some (l, t) := by
  obtain ⟨htk, hdr⟩ := takeWhile_hash_repl l t
  cases t with
  | nil => exact absurd rfl hne
  | cons t0 ts =>
    simp only [parseHead, htk, hdr, List.length_replicate]
    rw [if_pos ⟨h1, h6, isSpace_blank⟩]
    have : pyStrip (' ' :: t0 :: ts) = t0 :: ts := by
      unfold pyStrip
      rw [ltrim_cons_of_space isSpace_blank, hlt, hrt]
    rw [this]

theorem headsOf_eq80_block (r : List Char) :
    headsOf ('\n' :: (eq80 ++ '\n' :: r)) = headsOf r := by
  rw [headsOf_block eq80 r (by decide)]
  have : parseHead eq80 = none := by decide
  rw [this]
  rfl

theorem headsOf_dash_block (r : List Char) :
    headsOf ('\n' :: ('-' :: '-' :: '-' :: '\n' :: r)) = headsOf r := by
  have h := headsOf_block ['-', '-', '-'] r (by decide)
  have hd : parseHead ['-', '-', '-'] = none := by decide
  rw [hd] at h
  exact h

theorem headsOf_cons_nl_append (x r : List Char) :
    headsOf (('\n' :: x) ++ r) = headsOf (x ++ r) := by
  rw [List.cons_append, headsOf_cons_nl]

theorem headsOf_seg (a z r : List Char) :
    headsOf ((a ++ '\n' :: z) ++ r) = headsOf a ++ headsOf (z ++ r) := by
  rw [List.append_assoc, List.cons_append, headsOf_append_nl]

theorem fmtS_eq1 (l : Nat) (t : List Char) :
    fmtS (.mk l t [] .nil) =
      '\n' :: ((List.replicate l '#' ++ ' ' :: t) ++
        '\n' :: ('\n' :: (eq80 ++ ['\n']))) := by
  simp [fmtS]

theorem fmtS_eq2 (l : Nat) (t : List Char) (s2 : Sec) (f2 : Forest) :
    fmtS (.mk l t [] (.cons s2 f2)) =
      '\n' :: ((List.replicate l '#' ++ ' ' :: t) ++
        '\n' :: (fmtF (.cons s2 f2) ++ '\n' :: (eq80 ++ ['\n']))) := by
  simp [fmtS]

theorem fmtS_eq3 (l : Nat) (t : List Char) (c0 : Char) (cr : List Char) :
    fmtS (.mk l t (c0 :: cr) .nil) =
      '\n' :: ((List.replicate l '#' ++ ' ' :: t) ++
        '\n' :: ('\n' :: (pyStrip (c0 :: cr) ++
          '\n' :: ('\n' :: (eq80 ++ ['\n']))))) := by
  simp [fmtS]

theorem fmtS_eq4 (l : Nat) (t : List Char) (c0 : Char) (cr : List Char)
    (s2 : Sec) (f2 : Forest) :
    fmtS (.mk l t (c0 :: cr) (.cons s2 f2)) =
      '\n' :: ((List.replicate l '#' ++ ' ' :: t) ++
        '\n' :: ('\n' :: (pyStrip (c0 :: cr) ++
          '\n' :: ('\n' :: '-' :: '-' :: '-' :: '\n' ::
            (fmtF (.cons s2 f2) ++ '\n' :: (eq80 ++ ['\n'])))))) := by
  simp [fmtS]

theorem headsOf_eq80_end (r : List Char) :
    headsOf (((eq80 ++ ['\n'])) ++ r) = headsOf r := by
  rw [headsOf_seg eq80 [] r]
  have h1 : headsOf eq80 = [] := by decide
  rw [h1, List.nil_append]
  rfl

theorem headsOf_headline {l : Nat} {t : List Char} (h1 : 1 ≤ l) (h6 : l ≤ 6)
    (hne : t ≠ []) (hlt : ltrim t = t) (hrt : rtrim t = t)
    (hnl : noNL t = true) :
    headsOf (List.replicate l '#' ++ ' ' :: t) = [(l, t)] := by
  have hn : noNL (List.replicate l '#' ++ ' ' :: t) = true := by
    rw [noNL_append, noNL_replicate_hash]
    simp only [Bool.true_and, noNL, List.all_cons, Bool.and_eq_true]
    exact ⟨by decide, by simpa [noNL] using hnl⟩
  rw [headsOf_of_noNL hn, parseHead_headline h1 h6 hne hlt hrt]
  rfl

mutual

theorem headsOf_fmtS : ∀ (s : Sec) (r : List Char),
    (∀ x ∈ flatS s, okTriple x = true) →
    headsOf (fmtS s ++ r) =
      (flatS s).map (fun x => (x.1, x.2.1)) ++ headsOf r
  | .mk l t c ss, r, hok => by
    have hok0 : okTriple (l, t, c) = true := hok (l, t, c) (List.mem_cons_self _ _)
    have hoksub : ∀ x ∈ flatF ss, okTriple x = true :=
      fun x hx => hok x (List.mem_cons_of_mem _ hx)
    simp only [okTriple, Bool.and_eq_true, decide_eq_true_eq] at hok0
    obtain ⟨⟨⟨⟨⟨⟨⟨h1, h6⟩, hne⟩, hlt⟩, hrt⟩, hnl⟩, hps⟩, hhc⟩ := hok0
    have hHL : headsOf (List.replicate l '#' ++ ' ' :: t) = [(l, t)] :=
      headsOf_headline h1 h6 hne hlt hrt hnl
    have hRHS : (flatS (Sec.mk l t c ss)).map (fun x => (x.1, x.2.1)) =
        (l, t) :: (flatF ss).map (fun x => (x.1, x.2.1)) := by
      simp [flatS]
    rw [hRHS]
    cases c with
    | nil =>
      cases ss with
      | nil =>
        rw [fmtS_eq1, headsOf_cons_nl_append, headsOf_seg, hHL,
          headsOf_cons_nl_append, headsOf_eq80_end]
        simp [flatF]
      | cons s2 f2 =>
        rw [fmtS_eq2, headsOf_cons_nl_append, headsOf_seg, hHL,
          List.append_assoc,
          headsOf_fmtF (.cons s2 f2) (('\n' :: (eq80 ++ ['\n'])) ++ r) hoksub,
          headsOf_cons_nl_append, headsOf_eq80_end]
        simp
    | cons c0 cr =>
      have hcontent : headsOf (pyStrip (c0 :: cr)) = [] := by
        rw [hps]; exact hhc
      cases ss with
      | nil =>
        rw [fmtS_eq3, headsOf_cons_nl_append, headsOf_seg, hHL,
          headsOf_cons_nl_append, headsOf_seg, hcontent,
          headsOf_cons_nl_append, headsOf_eq80_end]
        simp [flatF]
      | cons s2 f2 =>
        rw [fmtS_eq4, headsOf_cons_nl_append, headsOf_seg, hHL,
          headsOf_cons_nl_append, headsOf_seg, hcontent]
        simp only [List.cons_append]
        rw [headsOf_cons_nl]
        have hd := headsOf_dash_block
          ((fmtF (.cons s2 f2) ++ '\n' :: (eq80 ++ ['\n'])) ++ r)
        rw [headsOf_cons_nl] at hd
        rw [hd, List.append_assoc,
          headsOf_fmtF (.cons s2 f2) (('\n' :: (eq80 ++ ['\n'])) ++ r) hoksub,
          headsOf_cons_nl_append, headsOf_eq80_end]
        simp

theorem headsOf_fmtF : ∀ (f : Forest) (r : List Char),
    (∀ x ∈ flatF f, okTriple x = true) →
    headsOf (fmtF f ++ r) =
      (flatF f).map (fun x => (x.1, x.2.1)) ++ headsOf r
  | .nil, r, _ => by simp [fmtF, flatF]
  | .cons s f, r, hok => by
    have hokS : ∀ x ∈ flatS s, okTriple x = true :=
      fun x hx => hok x (by
        simp only [flatF, List.mem_append]
        exact Or.inl hx)
    have hokF : ∀ x ∈ flatF f, okTriple x = true :=
      fun x hx => hok x (by
        simp only [flatF, List.mem_append]
        exact Or.inr hx)
    show headsOf ((fmtS s ++ fmtF f) ++ r) = _
    rw [List.append_assoc, headsOf_fmtS s (fmtF f ++ r) hokS,
      headsOf_fmtF f r hokF]
    simp [flatF, List.map_append, List.append_assoc]

end

/-- `standardize_output` emits exactly the pre-order heading sequence of a
well-formed tree. -/
theorem headsOf_standardize : ∀ f : Forest,
    (∀ x ∈ flatF f, okTriple x = true) →
    headsOf (standardizeOutput f) = flatLT f
  | .nil, _ => rfl
  | .cons s .nil, hok => by
    have h := headsOf_fmtS s [] (fun x hx => hok x (by
      simp only [flatF, List.mem_append]
      exact Or.inl hx))
    rw [List.append_nil] at h
    rw [standardizeOutput, h]
    simp [flatLT, flatF, headsOf_nil]
  | .cons s (.cons s2 f), hok => by
    have hokS : ∀ x ∈ flatS s, okTriple x = true :=
      fun x hx => hok x (by
        simp only [flatF, List.mem_append]
        exact Or.inl hx)
    have hokF : ∀ x ∈ flatF (.cons s2 f), okTriple x = true :=
      fun x hx => hok x (by
        simp only [flatF, List.mem_append]
        right
        simpa [flatF] using hx)
    rw [standardizeOutput, headsOf_fmtS s _ hokS, headsOf_cons_nl,
      headsOf_standardize (.cons s2 f) hokF]
    simp [flatLT, flatF, List.map_append, List.append_assoc]

/-- Every triple the scanner produces from good lines is well formed. -/
theorem scan_ok : ∀ (ls : List (List Char)) (pend : Option Pend),
    (∀ l ∈ ls, noNL l = true ∧ lineGood l = true) →
    (∀ p, pend = some p → pendOk p) →
    ∀ x ∈ flatF (scanLines ls pend), okTriple x = true
  | [], none, _, _ => by intro x hx; simp [scanLines, flatF] at hx
  | [], some p, _, hpend => by
    intro x hx
    simp only [scanLines, flatF, flatS_closePend] at hx
    simp only [List.append_nil, List.mem_singleton] at hx
    rw [hx]
    exact okTriple_closePend (hpend p rfl)
  | l :: ls, pend, hls, hpend => by
    intro x hx
    have hl := hls l (List.mem_cons_self l ls)
    have hrest : ∀ m ∈ ls, noNL m = true ∧ lineGood m = true :=
      fun m hm => hls m (List.mem_cons_of_mem l hm)
    cases hp : parseHead l with
    | some q =>
      obtain ⟨lv, tt⟩ := q
      cases pend with
      | none =>
        rw [scanLines, hp] at hx
        exact scan_ok ls (some ⟨lv, tt, []⟩) hrest
          (fun p2 he => (Option.some.injEq _ _ ▸ he) ▸
            pendOk_of_head hp hl.1 hl.2) x hx
      | some p =>
        rw [scanLines, hp] at hx
        simp only [flatF, flatS_closePend] at hx
        rcases List.mem_append.mp hx with hx | hx
        · rw [List.mem_singleton.mp hx]
          exact okTriple_closePend (hpend p rfl)
        · exact scan_ok ls (some ⟨lv, tt, []⟩) hrest
            (fun p2 he => (Option.some.injEq _ _ ▸ he) ▸
              pendOk_of_head hp hl.1 hl.2) x hx
    | none =>
      cases pend with
      | none =>
        rw [scanLines, hp] at hx
        exact scan_ok ls none hrest (fun p2 he => by cases he) x hx
      | some p =>
        rw [scanLines, hp] at hx
        exact scan_ok ls (some ⟨p.level, p.title, p.clines ++ [l]⟩) hrest
          (fun p2 he => (Option.some.injEq _ _ ▸ he) ▸
            pendOk_add_line (hpend p rfl) hp hl.1 hl.2) x hx

/-!
## Composition: the round trip and auxiliary scanner facts
-/

/-- Every node of a parse tree of good lines is well formed. -/
theorem parse_ok {text : List Char}
    (hg : ∀ l ∈ splitLines text, lineGood l = true) :
    ∀ x ∈ flatF (parseMarkdownSections text), okTriple x = true := by
  intro x hx
  unfold parseMarkdownSections at hx
  rw [organize_flat] at hx
  exact scan_ok (splitLines text) none
    (fun l hl => ⟨noNL_of_mem_splitLines hl, hg l hl⟩)
    (fun p he => by cases he) x hx

theorem scan_all_none : ∀ ls : List (List Char),
    (∀ l ∈ ls, parseHead l = none) → scanLines ls none = .nil
  | [], _ => rfl
  | l :: ls, h => by
    rw [scanLines, h l (List.mem_cons_self l ls)]
    exact scan_all_none ls (fun m hm => h m (List.mem_cons_of_mem l hm))

theorem scan_dropWhile : ∀ ls : List (List Char),
    scanLines ls none =
      scanLines (ls.dropWhile (fun l => (parseHead l).isNone)) none
  | [] => rfl
  | l :: ls => by
    cases hp : parseHead l with
    | some q =>
      rw [List.dropWhile_cons_of_neg (by simp [hp])]
    | none =>
      rw [scanLines, hp, List.dropWhile_cons_of_pos (by simp [hp])]
      exact scan_dropWhile ls

/-!
## The claims
-/

/-- C1: for every flat input sequence of sections, every Section in the
tree returned by `_organize_sections` has only subsections of strictly
greater level, recursively at every depth. -/
theorem c1_organize_strict_levels (f : Forest) (hf : allFlatF f = true) :
    goodF (organize f) = true :=
  organize_good hf

theorem c1_organize_strict_levels_witness :
    allFlatF (.cons (.mk 2 ['X'] [] .nil)
      (.cons (.mk 1 ['Y'] [] .nil) (.cons (.mk 3 ['Z'] [] .nil) .nil))) = true ∧
    goodF (organize (.cons (.mk 2 ['X'] [] .nil)
      (.cons (.mk 1 ['Y'] [] .nil) (.cons (.mk 3 ['Z'] [] .nil) .nil)))) = true :=
  ⟨by decide, c1_organize_strict_levels _ (by decide)⟩

/-- C2 (counterexample): the claim fails as stated.  The input
`"# A\n   # B"` consists of one ASCII heading line and one plain
non-heading content line, yet rendering and re-parsing does not reproduce
the `(level, title)` pre-order sequence: the renderer strips the leading
whitespace of the stored content, which turns the content line `"   # B"`
into the heading line `"# B"`. -/
theorem c2_roundtrip_counterexample :
    flatLT (parseMarkdownSections (standardizeOutput (parseMarkdownSections
      ['#', ' ', 'A', '\n', ' ', ' ', ' ', '#', ' ', 'B']))) ≠
    flatLT (parseMarkdownSections
      ['#', ' ', 'A', '\n', ' ', ' ', ' ', '#', ' ', 'B']) := by
  decide

/-- C2 (amended): for every ASCII input whose heading lines all carry a
non-whitespace title remainder and whose content lines remain non-heading
lines after left trimming, re-parsing the rendered output yields the same
pre-order `(level, title)` sequence as the original parse. -/
theorem c2_roundtrip_amended (text : List Char)
    (_hascii : ∀ ch ∈ text, ch.toNat < 128)
    (hg : ∀ l ∈ splitLines text, lineGood l = true) :
    flatLT (parseMarkdownSections (standardizeOutput
      (parseMarkdownSections text))) =
    flatLT (parseMarkdownSections text) := by
  rw [parse_flatLT]
  show headsOf (standardizeOutput (parseMarkdownSections text)) = _
  exact headsOf_standardize _ (parse_ok hg)

theorem c2_roundtrip_amended_witness :
    (∀ ch ∈ ('#' :: ' ' :: 'A' :: '\n' :: 'h' :: 'i' :: '\n' ::
      '#' :: '#' :: ' ' :: ['B']), ch.toNat < 128) ∧
    (∀ l ∈ splitLines ('#' :: ' ' :: 'A' :: '\n' :: 'h' :: 'i' :: '\n' ::
      '#' :: '#' :: ' ' :: ['B']), lineGood l = true) ∧
    flatLT (parseMarkdownSections (standardizeOutput (parseMarkdownSections
      ('#' :: ' ' :: 'A' :: '\n' :: 'h' :: 'i' :: '\n' ::
        '#' :: '#' :: ' ' :: ['B'])))) =
    flatLT (parseMarkdownSections ('#' :: ' ' :: 'A' :: '\n' :: 'h' :: 'i' ::
      '\n' :: '#' :: '#' :: ' ' :: ['B'])) :=
  ⟨by decide, by decide,
    c2_roundtrip_amended _ (by decide) (by decide)⟩

/-- C3: for every byte content of an existing file (and every detector
outcome), the decode phase of `read_file_content` returns some text and
never raises for decode reasons; when every strict candidate fails, the
terminal forced-substitution decode is total and its result is returned
(by construction of the final fallback branch). -/
theorem c3_resolver_totality (path : List Char) (bytes : List Nat)
    (det : Option ChardetResult) :
    ∃ t, readFileContentModel path bytes det = some t := by
  unfold readFileContentModel
  by_cases hp : (bytes.take 10).take 4 = pdfMagic
  · rw [if_pos hp]
    exact ⟨_, rfl⟩
  · rw [if_neg hp]
    cases tryCandidates (buildCandidates (gateDetected det)) bytes with
    | none => exact ⟨_, rfl⟩
    | some t => exact ⟨_, rfl⟩

/-- C4: a byte stream starting with the PDF magic marker short-circuits to
the fixed diagnostic document naming the file and its size, regardless of
the path's extension and of the detector outcome. -/
theorem c4_pdf_magic (path : List Char) (bytes : List Nat)
    (det : Option ChardetResult) (h : bytes.take 4 = pdfMagic) :
    readFileContentModel path bytes det =
      some (pdfDiagnostic path bytes.length) := by
  unfold readFileContentModel
  rw [List.take_take]
  have h4 : min 4 10 = 4 := by decide
  rw [h4, if_pos h]

theorem c4_pdf_magic_witness :
    ([0x25, 0x50, 0x44, 0x46, 0x2D] : List Nat).take 4 = pdfMagic ∧
    readFileContentModel "/tmp/p.md".data [0x25, 0x50, 0x44, 0x46, 0x2D] none =
      some (pdfDiagnostic "/tmp/p.md".data 5) := by
  refine ⟨by decide, ?_⟩
  have h := c4_pdf_magic "/tmp/p.md".data [0x25, 0x50, 0x44, 0x46, 0x2D] none
    (by decide)
  simpa using h

/-- C5: the detector confidence gate drops the detected encoding at
confidence 0.69 (leaving exactly the default candidate list) and retains
it as the first candidate at confidence 0.70; acceptance is exactly
`confidence ≥ 0.70`. -/
theorem c5_confidence_gate (enc : List Char) (conf : ℚ) (henc : enc ≠ []) :
    gateDetected (some ⟨some enc, 69 / 100⟩) = none ∧
    buildCandidates (gateDetected (some ⟨some enc, 69 / 100⟩)) =
      defaultEncodings ∧
    gateDetected (some ⟨some enc, 7 / 10⟩) = some enc ∧
    (buildCandidates (gateDetected (some ⟨some enc, 7 / 10⟩))).head? =
      some enc ∧
    (gateDetected (some ⟨some enc, conf⟩) = some enc ↔ 7 / 10 ≤ conf) := by
  have hgate69 : gateDetected (some ⟨some enc, 69 / 100⟩) = none := by
    show (if (69 / 100 : ℚ) < 7 / 10 then none else some enc) = none
    rw [if_pos (by norm_num)]
  have hgate70 : gateDetected (some ⟨some enc, 7 / 10⟩) = some enc := by
    show (if (7 / 10 : ℚ) < 7 / 10 then none else some enc) = some enc
    rw [if_neg (by norm_num)]
  refine ⟨hgate69, ?_, hgate70, ?_, ?_⟩
  · rw [hgate69]
    decide
  · rw [hgate70]
    unfold buildCandidates
    show (dedupEncs (enc :: defaultEncodings) []).head? = some enc
    unfold dedupEncs
    rw [if_pos ⟨henc, by simp⟩]
    rfl
  · constructor
    · intro h
      by_contra hlt
      have hnone : gateDetected (some ⟨some enc, conf⟩) = none := by
        show (if conf < 7 / 10 then none else some enc) = none
        rw [if_pos (not_le.mp hlt)]
      rw [hnone] at h
      exact absurd h (by simp)
    · intro h
      show (if conf < 7 / 10 then none else some enc) = some enc
      rw [if_neg (not_lt.mpr h)]

theorem c5_confidence_gate_witness :
    gateDetected (some ⟨some "utf-8".data, 69 / 100⟩) = none ∧
    buildCandidates (gateDetected (some ⟨some "utf-8".data, 69 / 100⟩)) =
      defaultEncodings ∧
    gateDetected (some ⟨some "utf-8".data, 7 / 10⟩) = some "utf-8".data ∧
    (buildCandidates (gateDetected (some ⟨some "utf-8".data, 7 / 10⟩))).head? =
      some "utf-8".data ∧
    (gateDetected (some ⟨some "utf-8".data, 1⟩) = some "utf-8".data ↔
      7 / 10 ≤ (1 : ℚ)) :=
  c5_confidence_gate "utf-8".data 1 (by decide)

/-- C6 (counterexample): the claim predicts that a directory ending in a
default-lab sentinel is rewritten to `baseDir/papers/<originalDirName>`;
the code instead rewrites it to `base_dir` itself (the `papers` rewrite is
the non-sentinel branch). -/
theorem c6_sentinel_counterexample :
    adjustPaperDir "/base".data "/home/u/deepcode_lab".data = "/base".data ∧
    adjustPaperDir "/base".data "/home/u/deepcode_lab".data ≠
      joinPath (joinPath "/base".data "papers".data)
        (basename "/home/u/deepcode_lab".data) := by
  constructor
  · decide
  · decide

/-- C6 (amended): when `base_dir` is supplied and the extracted paper
directory ends in a default-lab sentinel name, the directory is rewritten
to `base_dir` itself (non-sentinel directories go to
`baseDir/papers/<originalDirName>`); `os.makedirs(..., exist_ok=True)` is
then applied to the computed path. -/
theorem c6_sentinel_amended (baseDir paperDir : List Char)
    (h : sentinelNames.any (endsWithStr paperDir) = true) :
    adjustPaperDir baseDir paperDir = baseDir := by
  unfold adjustPaperDir
  rw [if_pos h]

theorem c6_sentinel_amended_witness :
    sentinelNames.any (endsWithStr "/w/agent_folders".data) = true ∧
    adjustPaperDir "/b".data "/w/agent_folders".data = "/b".data :=
  ⟨by decide, c6_sentinel_amended _ _ (by decide)⟩

/-- C7 (counterexample): the claim that every parsed Section has a
non-empty title fails: the heading line `"#  "` (hash, space, space)
matches the heading regex with a whitespace-only remainder, and its
trimmed title is the empty string. -/
theorem c7_title_counterexample :
    ¬(∀ p ∈ flatLT (parseMarkdownSections ['#', ' ', ' ']), p.2 ≠ []) := by
  decide

/-- C7 (amended): every parsed Section's title is trim-invariant (no
surrounding whitespace), and titles are non-empty provided every heading
line's remainder after the `#` run contains a non-whitespace character
(equivalently: no heading line has a whitespace-only remainder). -/
theorem c7_title_amended (text : List Char) :
    (∀ p ∈ flatLT (parseMarkdownSections text), pyStrip p.2 = p.2) ∧
    ((∀ l ∈ splitLines text,
        match parseHead l with
        | some (_, t) => t ≠ []
        | none => True) →
      ∀ p ∈ flatLT (parseMarkdownSections text), p.2 ≠ []) := by
  constructor
  · intro p hp
    rw [parse_flatLT] at hp
    obtain ⟨l, _, hl⟩ := List.mem_filterMap.mp hp
    obtain ⟨pn, pt⟩ := p
    obtain ⟨_, _, _, ht, _⟩ := parseHead_eq_some hl
    show pyStrip pt = pt
    rw [ht]
    exact pyStrip_idem _
  · intro hg p hp
    rw [parse_flatLT] at hp
    obtain ⟨l, hmem, hl⟩ := List.mem_filterMap.mp hp
    have := hg l hmem
    rw [hl] at this
    exact this

theorem c7_title_amended_witness :
    (∀ p ∈ flatLT (parseMarkdownSections ('#' :: ' ' :: 'T' :: [])),
      pyStrip p.2 = p.2) ∧
    ((∀ l ∈ splitLines ('#' :: ' ' :: 'T' :: []),
        match parseHead l with
        | some (_, t) => t ≠ []
        | none => True) →
      ∀ p ∈ flatLT (parseMarkdownSections ('#' :: ' ' :: 'T' :: [])),
        p.2 ≠ []) :=
  c7_title_amended ('#' :: ' ' :: 'T' :: [])

/-- C8: the literal flat input at heading levels `[1, 3, 2]` produces a
single level-1 root whose subsections are exactly the level-3 section
followed by the level-2 section, in that order, with no synthetic
intermediate nodes. -/
theorem c8_skipped_levels :
    organize (.cons (.mk 1 ['A'] [] .nil)
      (.cons (.mk 3 ['B'] [] .nil) (.cons (.mk 2 ['C'] [] .nil) .nil))) =
    .cons (.mk 1 ['A'] []
      (.cons (.mk 3 ['B'] [] .nil) (.cons (.mk 2 ['C'] [] .nil) .nil))) .nil :=
  rfl

/-- C9: a text with no heading line parses to the empty sequence, and more
generally all lines preceding the first heading line are discarded: the
scan of the line list equals the scan of the same list with its
non-heading prefix dropped. -/
theorem c9_prefix_discarded (text : List Char) :
    ((∀ l ∈ splitLines text, parseHead l = none) →
      parseMarkdownSections text = .nil) ∧
    scanLines (splitLines text) none =
      scanLines ((splitLines text).dropWhile
        (fun l => (parseHead l).isNone)) none := by
  constructor
  · intro h
    unfold parseMarkdownSections
    rw [scan_all_none (splitLines text) h]
    rfl
  · exact scan_dropWhile (splitLines text)

theorem c9_prefix_discarded_witness :
    ((∀ l ∈ splitLines ('a' :: 'b' :: '\n' :: 'c' :: []),
        parseHead l = none) →
      parseMarkdownSections ('a' :: 'b' :: '\n' :: 'c' :: []) = .nil) ∧
    scanLines (splitLines ('a' :: 'b' :: '\n' :: 'c' :: [])) none =
      scanLines ((splitLines ('a' :: 'b' :: '\n' :: 'c' :: [])).dropWhile
        (fun l => (parseHead l).isNone)) none :=
  c9_prefix_discarded ('a' :: 'b' :: '\n' :: 'c' :: [])

/-- C10: for every flat input sequence, the pre-order traversal of the
tree returned by `_organize_sections` is exactly the input sequence — no
section is dropped, duplicated or reordered. -/
theorem c10_preorder_preserved (f : Forest) (hf : allFlatF f = true) :
    flatF (organize f) = projF f := by
  rw [organize_flat]
  exact flatF_of_allFlat f hf

theorem c10_preorder_preserved_witness :
    allFlatF (.cons (.mk 1 ['a'] ['p'] .nil)
      (.cons (.mk 3 ['b'] [] .nil) (.cons (.mk 2 ['c'] [] .nil) .nil))) = true ∧
    flatF (organize (.cons (.mk 1 ['a'] ['p'] .nil)
      (.cons (.mk 3 ['b'] [] .nil) (.cons (.mk 2 ['c'] [] .nil) .nil)))) =
    projF (.cons (.mk 1 ['a'] ['p'] .nil)
      (.cons (.mk 3 ['b'] [] .nil) (.cons (.mk 2 ['c'] [] .nil) .nil))) :=
  ⟨by decide, c10_preorder_preserved _ (by decide)⟩
